import Mathlib

/-!
# Verification of the rag-sample ingestion and query pipeline

Shallow embedding of the Python sources (`populate_database.py`,
`query_data.py`, `test_rag.py`, `utils/get_sqlitestore.py`) together with
proofs about the chunk-identity assigner, the incremental diff engine, the
store adapter, retrieval deduplication, the query error boundary and the
evaluation-result parser.

External collaborators (the SHA-256 hash, the recursive text splitters, the
Chroma vector store, the LLM calls) are modelled as function parameters; the
logic under verification is translated from the repository's source.
-/

/-- A document chunk: `page_content` plus the metadata fields that the
repository ever reads or writes (`source`, `page`, `id`, `hash`,
`parent_id`).  Optional metadata keys are `Option`-valued; `id` and `hash`
are stamped by `generate_documents_with_metadata` (empty before that). -/
structure Doc where
  content : String
  source : Option String := none
  page : Option Nat := none
  id : String := ""
  hash : String := ""
  parent_id : Option String := none
deriving DecidableEq, Repr

/-- Decimal digits of `n`, most significant first, with explicit fuel so the
recursion is structural (fuel `n + 1` always suffices).  Mirrors Python's
`str` on a nonnegative integer. -/
def natReprAux : Nat → Nat → List Char
  | 0, _ => []
  | fuel + 1, n =>
    if n < 10 then [Nat.digitChar n]
    else natReprAux fuel (n / 10) ++ [Nat.digitChar (n % 10)]

/-- Decimal string of a natural number, as produced by Python string
formatting of an `int`. -/
def natRepr (n : Nat) : String :=
  ⟨natReprAux (n + 1) n⟩

theorem natReprAux_ne_nil (fuel n : Nat) (h : n < fuel) :
    natReprAux fuel n ≠ [] := by
  cases fuel with
  | zero => omega
  | succ f =>
    unfold natReprAux
    split
    · simp
    · simp

theorem natReprAux_fuel_irrel (fuel : Nat) :
    ∀ fuel2 n, n < fuel → n < fuel2 → natReprAux fuel n = natReprAux fuel2 n := by
  induction fuel with
  | zero => intro fuel2 n h _; omega
  | succ f ih =>
    intro fuel2 n h1 h2
    cases fuel2 with
    | zero => omega
    | succ g =>
      unfold natReprAux
      split
      · rfl
      · have hn : 10 ≤ n := by omega
        have hdiv : n / 10 < n := Nat.div_lt_self (by omega) (by omega)
        rw [ih g (n / 10) (by omega) (by omega)]

theorem natRepr_data_lt (n : Nat) (h : n < 10) :
    (natRepr n).data = [Nat.digitChar n] := by
  simp only [natRepr]
  unfold natReprAux
  simp [h]

theorem natRepr_data_ge (n : Nat) (h : 10 ≤ n) :
    (natRepr n).data = (natRepr (n / 10)).data ++ [Nat.digitChar (n % 10)] := by
  have hnl : ¬ n < 10 := by omega
  have hdiv : n / 10 < n := Nat.div_lt_self (by omega) (by omega)
  show natReprAux (n + 1) n = natReprAux (n / 10 + 1) (n / 10) ++ [Nat.digitChar (n % 10)]
  have h1 : natReprAux (n + 1) n = natReprAux n (n / 10) ++ [Nat.digitChar (n % 10)] := by
    simp [natReprAux, hnl]
  rw [h1, natReprAux_fuel_irrel n (n / 10 + 1) (n / 10) (by omega) (by omega)]

theorem digitChar_inj_lt : ∀ a < 10, ∀ b < 10,
    Nat.digitChar a = Nat.digitChar b → a = b := by decide

theorem digitChar_ne_colon : ∀ d < 10, Nat.digitChar d ≠ ':' := by decide

theorem natReprAux_no_colon (fuel : Nat) :
    ∀ n, ∀ c ∈ natReprAux fuel n, c ≠ ':' := by
  induction fuel with
  | zero => intro n c hc; simp [natReprAux] at hc
  | succ f ih =>
    intro n c hc
    unfold natReprAux at hc
    by_cases h : n < 10
    · simp only [h, if_true, List.mem_singleton] at hc
      subst hc
      exact digitChar_ne_colon n h
    · simp only [h, if_false, List.mem_append, List.mem_singleton] at hc
      rcases hc with hc | hc
      · exact ih (n / 10) c hc
      · subst hc
        exact digitChar_ne_colon (n % 10) (Nat.mod_lt n (by omega))

theorem natRepr_no_colon (n : Nat) : ∀ c ∈ (natRepr n).data, c ≠ ':' :=
  natReprAux_no_colon (n + 1) n

theorem natRepr_ne_nil (n : Nat) : (natRepr n).data ≠ [] :=
  natReprAux_ne_nil (n + 1) n (Nat.lt_succ_self n)

theorem natRepr_inj : ∀ m n : Nat, natRepr m = natRepr n → m = n := by
  intro m
  induction m using Nat.strong_induction_on with
  | _ m ih =>
    intro n h
    have hdata : (natRepr m).data = (natRepr n).data := by rw [h]
    by_cases hm : m < 10
    · by_cases hn : n < 10
      · rw [natRepr_data_lt m hm, natRepr_data_lt n hn] at hdata
        simp only [List.cons.injEq, and_true] at hdata
        exact digitChar_inj_lt m hm n hn hdata
      · rw [natRepr_data_lt m hm, natRepr_data_ge n (by omega)] at hdata
        have hlen := congrArg List.length hdata
        simp only [List.length_singleton, List.length_append] at hlen
        have hz : (natRepr (n / 10)).data.length = 0 := by omega
        exact absurd (List.length_eq_zero.mp hz) (natRepr_ne_nil (n / 10))
    · by_cases hn : n < 10
      · rw [natRepr_data_ge m (by omega), natRepr_data_lt n hn] at hdata
        have hlen := congrArg List.length hdata
        simp only [List.length_singleton, List.length_append] at hlen
        have hz : (natRepr (m / 10)).data.length = 0 := by omega
        exact absurd (List.length_eq_zero.mp hz) (natRepr_ne_nil (m / 10))
      · rw [natRepr_data_ge m (by omega), natRepr_data_ge n (by omega)] at hdata
        have hsplit := List.append_inj' hdata (by simp)
        have hmod : m % 10 = n % 10 := by
          have := hsplit.2
          simp only [List.cons.injEq, and_true] at this
          exact digitChar_inj_lt (m % 10) (Nat.mod_lt m (by omega))
            (n % 10) (Nat.mod_lt n (by omega)) this
        have hdiveq : natRepr (m / 10) = natRepr (n / 10) := by
          apply String.ext
          exact hsplit.1
        have hdiv : m / 10 = n / 10 :=
          ih (m / 10) (Nat.div_lt_self (by omega) (by omega)) (n / 10) hdiveq
        omega

/-- If two `prefix ++ ":" ++ suffix` character lists agree and neither suffix
contains `':'`, the prefixes and suffixes agree. -/
theorem append_colon_inj :
    ∀ (a b u v : List Char), (∀ c ∈ u, c ≠ ':') → (∀ c ∈ v, c ≠ ':') →
      a ++ ':' :: u = b ++ ':' :: v → a = b ∧ u = v := by
  intro a
  induction a with
  | nil =>
    intro b u v hu hv h
    cases b with
    | nil => simp only [List.nil_append, List.cons.injEq, true_and] at h ⊢; exact h
    | cons c b' =>
      simp only [List.nil_append, List.cons_append, List.cons.injEq] at h
      obtain ⟨hc, hrest⟩ := h
      exfalso
      have : ':' ∈ u := by
        rw [hrest]
        exact List.mem_append_right b' (List.mem_cons_self ':' v)
      exact hu ':' this rfl
  | cons c a' ih =>
    intro b u v hu hv h
    cases b with
    | nil =>
      simp only [List.cons_append, List.nil_append, List.cons.injEq] at h
      obtain ⟨hc, hrest⟩ := h
      exfalso
      have : ':' ∈ v := by
        rw [← hrest]
        exact List.mem_append_right a' (List.mem_cons_self ':' u)
      exact hv ':' this rfl
    | cons d b' =>
      simp only [List.cons_append, List.cons.injEq] at h
      obtain ⟨hcd, hrest⟩ := h
      obtain ⟨hab, huv⟩ := ih b' u v hu hv hrest
      exact ⟨by rw [hcd, hab], huv⟩

/-- Encoding of a chunk id from its page-id string and chunk index, as built
by the f-string `f"{current_page_id}:{current_chunk_index}"`. -/
def encodeId (p : String × Nat) : String :=
  p.1 ++ ":" ++ natRepr p.2

theorem string_append_data (a b : String) : (a ++ b).data = a.data ++ b.data :=
  String.data_append a b

theorem encodeId_inj : ∀ p q, encodeId p = encodeId q → p = q := by
  intro ⟨a, i⟩ ⟨b, j⟩ h
  have hdata : (a ++ ":" ++ natRepr i).data = (b ++ ":" ++ natRepr j).data := by
    simpa [encodeId] using congrArg String.data h
  rw [string_append_data, string_append_data, string_append_data,
    string_append_data] at hdata
  have hcolon : (":" : String).data = [':'] := rfl
  rw [hcolon] at hdata
  simp only [List.append_assoc, List.singleton_append] at hdata
  obtain ⟨hab, hij⟩ := append_colon_inj a.data b.data (natRepr i).data
    (natRepr j).data (natRepr_no_colon i) (natRepr_no_colon j) hdata
  have : i = j := natRepr_inj i j (String.ext hij)
  have hab' : a = b := String.ext hab
  simp [hab', this]

/-- The string Python's f-string produces for `metadata.get("source")`:
the source itself, or `"None"` when the key is absent. -/
def sourceStr : Option String → String
  | some s => s
  | none => "None"

/-- `current_page_id` as built in `generate_documents_with_metadata`:
`f"{source}"`, plus `f":{source_chunk_idx}"` when a parent-index
disambiguator is supplied, plus `f":{page or 0}"`. -/
def pageId (source_chunk_idx : Option Nat) (d : Doc) : String :=
  sourceStr d.source
    ++ (match source_chunk_idx with
        | some i => ":" ++ natRepr i
        | none => "")
    ++ ":" ++ natRepr (d.page.getD 0)

/-- The loop body state of `generate_documents_with_metadata`:
`last_page_id` (initially `None`) and `current_chunk_index`.  Each document
gets `id = f"{page_id}:{index}"` and `hash = generate_hash(page_content)`;
the SHA-256 hash is abstracted as the parameter `hashFn`. -/
def gdwmGo (hashFn : String → String) (sci : Option Nat) :
    Option String → Nat → List Doc → List Doc
  | _, _, [] => []
  | last, cur, d :: ds =>
    let p := pageId sci d
    let i := if some p = last then cur + 1 else 0
    { d with id := p ++ ":" ++ natRepr i, hash := hashFn d.content } ::
      gdwmGo hashFn sci (some p) i ds

/-- `generate_documents_with_metadata` from `populate_database.py`: assigns
`id` and `hash` to each document in processing order, starting with
`last_page_id = None` and `current_chunk_index = 0`. -/
def generate_documents_with_metadata (hashFn : String → String)
    (documents : List Doc) (source_chunk_idx : Option Nat) : List Doc :=
  gdwmGo hashFn source_chunk_idx none 0 documents

/-- Abstract view of the id assignment: the `(page_id, chunk_index)` pair
given to each document by the `generate_documents_with_metadata` loop. -/
def idxGo (sci : Option Nat) : Option String → Nat → List Doc → List (String × Nat)
  | _, _, [] => []
  | last, cur, d :: ds =>
    let p := pageId sci d
    let i := if some p = last then cur + 1 else 0
    (p, i) :: idxGo sci (some p) i ds

theorem gdwmGo_ids (hashFn : String → String) (sci : Option Nat) :
    ∀ (ds : List Doc) (last : Option String) (cur : Nat),
      (gdwmGo hashFn sci last cur ds).map Doc.id =
        (idxGo sci last cur ds).map encodeId := by
  intro ds
  induction ds with
  | nil => intro last cur; rfl
  | cons d rest ih =>
    intro last cur
    simp only [gdwmGo, idxGo, List.map_cons, encodeId, List.cons.injEq]
    exact ⟨trivial, ih _ _⟩

theorem idxGo_length (sci : Option Nat) :
    ∀ (ds : List Doc) (last : Option String) (cur : Nat),
      (idxGo sci last cur ds).length = ds.length := by
  intro ds
  induction ds with
  | nil => intro last cur; rfl
  | cons d rest ih => intro last cur; simp only [idxGo, List.length_cons, ih]

theorem idxGo_fst_mem (sci : Option Nat) :
    ∀ (ds : List Doc) (last : Option String) (cur : Nat) (pr : String × Nat),
      pr ∈ idxGo sci last cur ds → pr.1 ∈ ds.map (pageId sci) := by
  intro ds
  induction ds with
  | nil => intro last cur pr h; simp [idxGo] at h
  | cons d rest ih =>
    intro last cur pr h
    simp only [idxGo, List.mem_cons] at h
    rcases h with h | h
    · subst h; simp [List.map_cons]
    · simp only [List.map_cons, List.mem_cons]
      exact Or.inr (ih _ _ _ h)

/-- `initialRun q l` holds when every occurrence of `q` in `l` lies in the
initial run of `q`s: once a different value appears, `q` never recurs. -/
def initialRun (q : String) : List String → Bool
  | [] => true
  | x :: xs => if x = q then initialRun q xs else decide (q ∉ x :: xs)

/-- `grouped l` holds when equal values of `l` occur contiguously: whenever
the value changes from one position to the next, the old value never
reappears later in the list. -/
def grouped : List String → Bool
  | [] => true
  | [_] => true
  | a :: b :: rest => (decide (a = b) || decide (a ∉ b :: rest)) && grouped (b :: rest)

theorem grouped_cons (a : String) (l : List String) (h : grouped (a :: l) = true) :
    grouped l = true := by
  cases l with
  | nil => rfl
  | cons b rest =>
    simp only [grouped, Bool.and_eq_true] at h
    exact h.2

theorem grouped_initialRun :
    ∀ (l : List String) (a : String), grouped (a :: l) = true → initialRun a l = true := by
  intro l
  induction l with
  | nil => intro a _; rfl
  | cons b rest ih =>
    intro a h
    simp only [grouped, Bool.and_eq_true, Bool.or_eq_true, decide_eq_true_eq] at h
    obtain ⟨hab, hrest⟩ := h
    by_cases hba : b = a
    · subst hba
      simp only [initialRun, if_pos rfl]
      exact ih b hrest
    · rcases hab with hab | hab
      · exact absurd hab.symm hba
      · simp only [initialRun, if_neg hba, decide_eq_true_eq]
        exact hab

theorem idxGo_lower (sci : Option Nat) :
    ∀ (ds : List Doc) (q : String) (k : Nat),
      initialRun q (ds.map (pageId sci)) = true →
      ∀ pr ∈ idxGo sci (some q) k ds, pr.1 = q → k < pr.2 := by
  intro ds
  induction ds with
  | nil => intro q k _ pr h; simp [idxGo] at h
  | cons d rest ih =>
    intro q k hrun pr hmem hfst
    simp only [List.map_cons, initialRun] at hrun
    simp only [idxGo, List.mem_cons] at hmem
    by_cases hp : pageId sci d = q
    · rw [if_pos hp] at hrun
      rcases hmem with hmem | hmem
      · subst hmem
        show k < (if some (pageId sci d) = some q then k + 1 else 0)
        rw [if_pos (by rw [hp])]
        omega
      · rw [hp] at hmem
        have := ih q (k + 1) hrun pr (by simpa [hp] using hmem) hfst
        omega
    · rw [if_neg hp, decide_eq_true_eq] at hrun
      rcases hmem with hmem | hmem
      · subst hmem; exact absurd hfst hp
      · exfalso
        simp only [if_neg (show ¬ some (pageId sci d) = some q by simp [hp])] at hmem
        have hfm := idxGo_fst_mem sci rest (some (pageId sci d)) 0 pr hmem
        rw [hfst] at hfm
        exact hrun (List.mem_cons_of_mem _ hfm)

theorem idxGo_nodup (sci : Option Nat) :
    ∀ (ds : List Doc) (last : Option String) (cur : Nat),
      grouped (ds.map (pageId sci)) = true →
      (idxGo sci last cur ds).Nodup := by
  intro ds
  induction ds with
  | nil => intro last cur _; simp [idxGo]
  | cons d rest ih =>
    intro last cur hg
    have hg' : grouped (rest.map (pageId sci)) = true :=
      grouped_cons _ _ (by simpa [List.map_cons] using hg)
    have hrun : initialRun (pageId sci d) (rest.map (pageId sci)) = true :=
      grouped_initialRun _ _ (by simpa [List.map_cons] using hg)
    simp only [idxGo, List.nodup_cons]
    refine ⟨?_, ih _ _ hg'⟩
    intro hmem
    have := idxGo_lower sci rest (pageId sci d) _ hrun _ hmem rfl
    omega

theorem idxGo_uniform_cont (sci : Option Nat) (pid : String) :
    ∀ (ds : List Doc), (∀ d ∈ ds, pageId sci d = pid) →
      ∀ k, idxGo sci (some pid) k ds =
        (List.range ds.length).map (fun i => (pid, k + 1 + i)) := by
  intro ds
  induction ds with
  | nil => intro _ k; rfl
  | cons d rest ih =>
    intro huni k
    have hd : pageId sci d = pid := huni d (List.mem_cons_self d rest)
    simp only [idxGo, List.length_cons]
    rw [hd, if_pos rfl]
    rw [ih (fun e he => huni e (List.mem_cons_of_mem d he)) (k + 1)]
    rw [List.range_succ_eq_map, List.map_cons, List.map_map]
    refine congrArg₂ _ (by simp) ?_
    apply List.map_congr_left
    intro i _
    simp only [Function.comp_apply, Prod.mk.injEq, true_and]
    omega

theorem idxGo_uniform_fresh (sci : Option Nat) (pid : String) :
    ∀ (ds : List Doc), (∀ d ∈ ds, pageId sci d = pid) →
      idxGo sci none 0 ds = (List.range ds.length).map (fun i => (pid, i)) := by
  intro ds huni
  cases ds with
  | nil => rfl
  | cons d rest =>
    have hd : pageId sci d = pid := huni d (List.mem_cons_self d rest)
    simp only [idxGo, hd, List.length_cons]
    rw [if_neg (by simp)]
    rw [idxGo_uniform_cont sci pid rest
      (fun e he => huni e (List.mem_cons_of_mem d he)) 0]
    rw [List.range_succ_eq_map, List.map_cons, List.map_map]
    refine congrArg₂ _ rfl ?_
    apply List.map_congr_left
    intro i _
    simp only [Function.comp_apply, Prod.mk.injEq, true_and]
    omega

theorem idxGo_reset (sci : Option Nat) :
    ∀ (ds : List Doc) (last : Option String) (cur i : Nat) (d1 d2 : Doc),
      ds[i]? = some d1 → ds[i + 1]? = some d2 →
      pageId sci d2 ≠ pageId sci d1 →
      (idxGo sci last cur ds)[i + 1]? = some (pageId sci d2, 0) := by
  intro ds
  induction ds with
  | nil => intro last cur i d1 d2 h1 _ _; simp at h1
  | cons d rest ih =>
    intro last cur i d1 d2 h1 h2 hne
    cases i with
    | zero =>
      simp only [List.getElem?_cons_zero, Option.some.injEq] at h1
      subst h1
      cases rest with
      | nil => simp at h2
      | cons e rest' =>
        simp only [List.getElem?_cons_succ, List.getElem?_cons_zero,
          Option.some.injEq] at h2
        subst h2
        simp only [idxGo, List.getElem?_cons_succ, List.getElem?_cons_zero,
          Option.some.injEq]
        rw [if_neg (by simpa using hne)]
    | succ j =>
      simp only [List.getElem?_cons_succ] at h1 h2
      simp only [idxGo, List.getElem?_cons_succ]
      exact ih _ _ j d1 d2 h1 h2 hne

/-- Loop of `get_documents_to_add_or_update`: appends each document either to
`new_documents` (id absent from `existing_ids`) or to `updated_documents`
(id present and the stored hash, fetched through `storeHash`, differs).
`storeHash id` models `vectorstore.get(ids=[id])["metadatas"][0].get("hash")`
(`None` when the stored metadata has no `hash` key). -/
def gdtaouGo (existing_ids : List String) (storeHash : String → Option String) :
    List Doc → List Doc → List Doc → List Doc × List Doc
  | [], news, upds => (news, upds)
  | d :: ds, news, upds =>
    if d.id ∈ existing_ids then
      if storeHash d.id ≠ some d.hash then
        gdtaouGo existing_ids storeHash ds news (upds ++ [d])
      else
        gdtaouGo existing_ids storeHash ds news upds
    else
      gdtaouGo existing_ids storeHash ds (news ++ [d]) upds

/-- `get_documents_to_add_or_update` from `populate_database.py`. -/
def get_documents_to_add_or_update (documents : List Doc)
    (existing_ids : List String) (storeHash : String → Option String) :
    List Doc × List Doc :=
  gdtaouGo existing_ids storeHash documents [] []

/-- `chunk_list` from `populate_database.py`:
`[lst[i:i + chunk_size] for i in range(0, len(lst), chunk_size)]`. -/
def chunk_list (lst : List Doc) (chunk_size : Nat) : List (List Doc) :=
  (List.range ((lst.length + chunk_size - 1) / chunk_size)).map
    (fun i => (lst.drop (i * chunk_size)).take chunk_size)

/-- Observable effects of `add_documents_to_store`: the key/value pairs
written to the docstore via `mset` (only when `sub_documents` is nonempty),
and the batches written to the vector store by
`add_or_update_documents_to_vectorstore` for the new chunks followed by the
updated chunks. -/
def add_documents_to_store (documents : List Doc) (sub_documents : List Doc)
    (chunk_size : Nat) (existing_ids : List String)
    (storeHash : String → Option String) :
    List (String × Doc) × List (List Doc) :=
  let vectorstore_documents := if sub_documents.isEmpty then documents else sub_documents
  let docstore_writes :=
    if sub_documents.isEmpty then [] else documents.map (fun d => (d.id, d))
  let r := get_documents_to_add_or_update vectorstore_documents existing_ids storeHash
  (docstore_writes, chunk_list r.1 chunk_size ++ chunk_list r.2 chunk_size)

/-- The `for idx, document in enumerate(new_documents)` loop of
`split_documents`: each parent's children are re-identified with the parent's
position index as disambiguator and stamped with the parent's id. -/
def childrenGo (hashFn : String → String) (childSplit : List Doc → List Doc) :
    Nat → List Doc → List Doc
  | _, [] => []
  | idx, document :: rest =>
    (generate_documents_with_metadata hashFn (childSplit [document]) (some idx)).map
        (fun sd => { sd with parent_id := some document.id })
      ++ childrenGo hashFn childSplit (idx + 1) rest

/-- `split_documents` from `populate_database.py`.  The two
`RecursiveCharacterTextSplitter` instances (configured with
`parent_chunk_size` and `child_chunk_size`) are abstracted as the functions
`parentSplit` and `childSplit`; `child_chunk_size > 0` gates child
splitting exactly as in the source. -/
def split_documents (hashFn : String → String)
    (parentSplit childSplit : List Doc → List Doc)
    (documents : List Doc) (child_chunk_size : Nat) : List Doc × List Doc :=
  let new_documents := generate_documents_with_metadata hashFn (parentSplit documents) none
  let sub_documents :=
    if 0 < child_chunk_size then childrenGo hashFn childSplit 0 new_documents else []
  (new_documents, sub_documents)

/-- State of the `SqliteDict`-backed key/value store: a lookup function. -/
def Db : Type := String → Option Doc

/-- The empty store. -/
def dbEmpty : Db := fun _ => none

/-- `Sqlitestore.mget`: `[self.db[key] for key in keys]`.  Indexing a missing
key raises `KeyError`, so the result is `none` when any key is absent. -/
def Sqlitestore.mget (db : Db) : List String → Option (List Doc)
  | [] => some []
  | k :: ks =>
    match db k with
    | none => none
    | some v => (Sqlitestore.mget db ks).map (fun vs => v :: vs)

/-- `Sqlitestore.mset`: `for key, value in key_value_pairs: self.db[key] = value`. -/
def Sqlitestore.mset (db : Db) (key_value_pairs : List (String × Doc)) : Db :=
  key_value_pairs.foldl
    (fun db kv => fun q => if q = kv.1 then some kv.2 else db q) db

/-- `del self.db[key]`: removes a present key, raises `KeyError` otherwise. -/
def Sqlitestore.delete_key (db : Db) (key : String) : Option Db :=
  match db key with
  | some _ => some (fun q => if q = key then none else db q)
  | none => none

/-- `Sqlitestore.mdelete`: `for key in keys: if key in self.db: del self.db[key]`. -/
def Sqlitestore.mdelete : Db → List String → Option Db
  | db, [] => some db
  | db, k :: ks =>
    match (if (db k).isSome then Sqlitestore.delete_key db k else some db) with
    | some db2 => Sqlitestore.mdelete db2 ks
    | none => none

/-- The source label `f"{doc.metadata.get('source', 'unknown')} page
{doc.metadata.get('page', 'unknown')}"` from `retrieve_relevant_docs`. -/
def sourceLabel (d : Doc) : String :=
  d.source.getD "unknown" ++ " page " ++
    (match d.page with
     | some p => natRepr p
     | none => "unknown")

/-- Loop of `retrieve_relevant_docs`: per question variant, filter the
retriever's results by ids not yet in `source_ids`, then extend
`relevant_docs`, `source_ids` and `source_pages`. -/
def rrdGo (retriever : String → List Doc) :
    List String → List Doc → List String → List String → List Doc × List String
  | [], acc, _, pages => (acc, pages)
  | q :: qs, acc, seen, pages =>
    let r := (retriever q).filter (fun d => decide (d.id ∉ seen))
    rrdGo retriever qs (acc ++ r) (seen ++ r.map Doc.id)
      (pages ++ r.map sourceLabel)

/-- `retrieve_relevant_docs` from `query_data.py`.  `retriever q` models
`retriever.invoke(q)`; deduplication keys on `doc.metadata.get("id")`. -/
def retrieve_relevant_docs (questions : List String)
    (retriever : String → List Doc) : List Doc × List String :=
  rrdGo retriever questions [] [] []

/-- Specification-level dedup: keep a retrieved document exactly when no
EARLIER question variant retrieved any document with the same id, preserving
retrieval order.  (`seen` accumulates the ids of all raw results of the
variants already processed.) -/
def rrdSpecGo : List (List Doc) → List String → List Doc
  | [], _ => []
  | b :: bs, seen =>
    b.filter (fun d => decide (d.id ∉ seen)) ++ rrdSpecGo bs (seen ++ b.map Doc.id)

/-- Console events printed by `query_rag`. -/
inductive LogEntry where
  | response (text : String) (sources : List String)
  | error (msg : String)
deriving DecidableEq, Repr

/-- The body of `query_rag`'s `try` block: query expansion (dropping the
first output line), retrieval, and answer generation.  Each external stage
may raise, modelled by `Except`. -/
def query_pipeline (expand : String → Except String (List String))
    (retrieveStage : List String → Except String (List Doc × List String))
    (generate : String → List Doc → Except String String)
    (query_text : String) : Except String (String × List String) := do
  let lines ← expand query_text
  let questions := lines.drop 1
  let (relevant_docs, source_pages) ← retrieveStage questions
  let response_text ← generate query_text relevant_docs
  pure (response_text, source_pages)

/-- `query_rag` from `query_data.py`: runs the pipeline inside the
`try/except` boundary, printing the response on success and
`f"An error occurred: {e}"` on failure; only the success path returns a
value. -/
def query_rag (expand : String → Except String (List String))
    (retrieveStage : List String → Except String (List Doc × List String))
    (generate : String → List Doc → Except String String)
    (query_text : String) : Option String × List LogEntry :=
  match query_pipeline expand retrieveStage generate query_text with
  | Except.ok (r, pages) => (some r, [LogEntry.response r pages])
  | Except.error e => (none, [LogEntry.error e])

/-- Whether `needle` occurs as a contiguous sublist of `hay`. -/
def listInfixOf (needle : List Char) : List Char → Bool
  | [] => needle.isEmpty
  | c :: rest => needle.isPrefixOf (c :: rest) || listInfixOf needle rest

/-- Python's substring test `needle in hay` on the underlying characters. -/
def strContains (hay needle : String) : Bool :=
  listInfixOf needle.data hay.data

/-- `process_evaluation_result` from `test_rag.py`: `True` when `"true"`
occurs in the string, else `False` when `"false"` occurs, else a
`ValueError`. -/
def process_evaluation_result (evaluation_result : String) : Except String Bool :=
  if strContains evaluation_result "true" then Except.ok true
  else if strContains evaluation_result "false" then Except.ok false
  else Except.error "Invalid evaluation result. Expected 'true' or 'false'."

theorem gdtaouGo_eq (existing_ids : List String) (storeHash : String → Option String) :
    ∀ (ds news upds : List Doc),
      gdtaouGo existing_ids storeHash ds news upds =
        (news ++ ds.filter (fun d => decide (d.id ∉ existing_ids)),
         upds ++ ds.filter (fun d =>
           decide (d.id ∈ existing_ids) && decide (storeHash d.id ≠ some d.hash))) := by
  intro ds
  induction ds with
  | nil => intro news upds; simp [gdtaouGo]
  | cons d rest ih =>
    intro news upds
    by_cases hid : d.id ∈ existing_ids
    · by_cases hh : storeHash d.id ≠ some d.hash
      · simp only [gdtaouGo, if_pos hid, if_pos hh, ih, List.filter_cons]
        simp [hid, hh]
      · simp only [gdtaouGo, if_pos hid, if_neg hh, ih, List.filter_cons]
        simp [hid, hh]
    · simp only [gdtaouGo, if_neg hid, ih, List.filter_cons]
      simp [hid]

theorem gdtaou_filters (documents : List Doc) (existing_ids : List String)
    (storeHash : String → Option String) :
    get_documents_to_add_or_update documents existing_ids storeHash =
      (documents.filter (fun d => decide (d.id ∉ existing_ids)),
       documents.filter (fun d =>
         decide (d.id ∈ existing_ids) && decide (storeHash d.id ≠ some d.hash))) := by
  unfold get_documents_to_add_or_update
  rw [gdtaouGo_eq]
  simp

/-- C1: `get_documents_to_add_or_update` classifies a chunk occurrence as
new exactly when its id is outside the existing-id set, as updated exactly
when its id is in the set and the stored hash differs from the candidate's
hash, omits chunks whose stored hash equals the candidate's, and the two
returned lists are disjoint. -/
theorem diff_engine_classification (documents : List Doc)
    (existing_ids : List String) (storeHash : String → Option String) :
    (get_documents_to_add_or_update documents existing_ids storeHash).1
        = documents.filter (fun d => decide (d.id ∉ existing_ids)) ∧
    (get_documents_to_add_or_update documents existing_ids storeHash).2
        = documents.filter (fun d =>
            decide (d.id ∈ existing_ids) && decide (storeHash d.id ≠ some d.hash)) ∧
    ∀ d, d ∈ (get_documents_to_add_or_update documents existing_ids storeHash).1 →
      d ∉ (get_documents_to_add_or_update documents existing_ids storeHash).2 := by
  rw [gdtaou_filters]
  refine ⟨rfl, rfl, ?_⟩
  intro d hnew hupd
  simp only [List.mem_filter, decide_eq_true_eq, Bool.and_eq_true] at hnew hupd
  exact hnew.2 hupd.2.1

/-- Instantiation of `diff_engine_classification` at a concrete input. -/
theorem diff_engine_classification_witness :
    (get_documents_to_add_or_update
        [{ content := "a", id := "x", hash := "h1" },
         { content := "b", id := "y", hash := "h2" }]
        ["y"] (fun _ => some "h0")).1
      = [{ content := "a", id := "x", hash := "h1" }] ∧
    ({ content := "b", id := "y", hash := "h2" } : Doc) ∉
      (get_documents_to_add_or_update
        [{ content := "a", id := "x", hash := "h1" },
         { content := "b", id := "y", hash := "h2" }]
        ["y"] (fun _ => some "h0")).1 := by
  have h := diff_engine_classification
    [{ content := "a", id := "x", hash := "h1" },
     { content := "b", id := "y", hash := "h2" }]
    ["y"] (fun _ => some "h0")
  refine ⟨?_, ?_⟩
  · rw [h.1]; decide
  · rw [h.1]; decide

theorem chunk_list_nil (chunk_size : Nat) : chunk_list [] chunk_size = [] := by
  unfold chunk_list
  cases chunk_size with
  | zero => rfl
  | succ k =>
    simp only [List.length_nil, Nat.zero_add, Nat.succ_sub_one]
    rw [Nat.div_eq_of_lt (Nat.lt_succ_self k)]
    rfl

/-- C2: re-ingestion is idempotent.  If the vector index already contains
every candidate chunk's id with that chunk's hash stored in its metadata,
the diff engine returns empty `new` and `updated` lists and
`add_documents_to_store` performs no vector-store write. -/
theorem reingestion_idempotent (documents sub_documents : List Doc)
    (chunk_size : Nat) (existing_ids : List String)
    (storeHash : String → Option String)
    (hall : ∀ d ∈ (if sub_documents.isEmpty then documents else sub_documents),
      d.id ∈ existing_ids ∧ storeHash d.id = some d.hash) :
    get_documents_to_add_or_update
        (if sub_documents.isEmpty then documents else sub_documents)
        existing_ids storeHash = ([], []) ∧
    (add_documents_to_store documents sub_documents chunk_size existing_ids
        storeHash).2 = [] := by
  have h := gdtaou_filters
    (if sub_documents.isEmpty then documents else sub_documents)
    existing_ids storeHash
  have hnew : (get_documents_to_add_or_update
      (if sub_documents.isEmpty then documents else sub_documents)
      existing_ids storeHash).1 = [] := by
    rw [h]
    show List.filter _ _ = []
    rw [List.filter_eq_nil_iff]
    intro d hd
    simp only [decide_eq_true_eq, Decidable.not_not]
    exact (hall d hd).1
  have hupd : (get_documents_to_add_or_update
      (if sub_documents.isEmpty then documents else sub_documents)
      existing_ids storeHash).2 = [] := by
    rw [h]
    show List.filter _ _ = []
    rw [List.filter_eq_nil_iff]
    intro d hd
    simp only [Bool.and_eq_true, decide_eq_true_eq, not_and, Decidable.not_not]
    intro _
    exact (hall d hd).2
  refine ⟨?_, ?_⟩
  · exact Prod.ext hnew hupd
  · show chunk_list (get_documents_to_add_or_update
        (if sub_documents.isEmpty then documents else sub_documents)
        existing_ids storeHash).1 chunk_size ++
      chunk_list (get_documents_to_add_or_update
        (if sub_documents.isEmpty then documents else sub_documents)
        existing_ids storeHash).2 chunk_size = []
    rw [hnew, hupd, chunk_list_nil]
    rfl

/-- Instantiation of `reingestion_idempotent` at a concrete input. -/
theorem reingestion_idempotent_witness :
    get_documents_to_add_or_update [{ content := "a", id := "x", hash := "h1" }]
        ["x"] (fun _ => some "h1") = ([], []) ∧
    (add_documents_to_store [{ content := "a", id := "x", hash := "h1" }] []
        500 ["x"] (fun _ => some "h1")).2 = [] := by
  have h := reingestion_idempotent [{ content := "a", id := "x", hash := "h1" }]
    [] 500 ["x"] (fun _ => some "h1") (by decide)
  exact h

/-- C3: for a run over chunks all sharing the same source and page, with no
parent-index disambiguator, the assigned ids are
`{source}:{page}:0 .. {source}:{page}:N-1` in processing order; and in any
run, a chunk whose page id differs from the immediately preceding chunk's
page id is assigned chunk index `0`. -/
theorem chunk_ids_page_window :
    (∀ (hashFn : String → String) (s : Option String) (p : Option Nat)
        (ds : List Doc),
      (∀ d ∈ ds, d.source = s ∧ d.page = p) →
      (generate_documents_with_metadata hashFn ds none).map Doc.id =
        (List.range ds.length).map
          (fun i => sourceStr s ++ ":" ++ natRepr (p.getD 0) ++ ":" ++ natRepr i)) ∧
    (∀ (hashFn : String → String) (sci : Option Nat) (ds : List Doc)
        (i : Nat) (d1 d2 : Doc),
      ds[i]? = some d1 → ds[i + 1]? = some d2 →
      pageId sci d2 ≠ pageId sci d1 →
      ((generate_documents_with_metadata hashFn ds sci).map Doc.id)[i + 1]? =
        some (pageId sci d2 ++ ":" ++ natRepr 0)) := by
  constructor
  · intro hashFn s p ds huni
    have hpid : ∀ d ∈ ds, pageId none d = sourceStr s ++ ":" ++ natRepr (p.getD 0) := by
      intro d hd
      obtain ⟨h1, h2⟩ := huni d hd
      simp [pageId, h1, h2]
    show (gdwmGo hashFn none none 0 ds).map Doc.id = _
    rw [gdwmGo_ids, idxGo_uniform_fresh none _ ds hpid, List.map_map]
    apply List.map_congr_left
    intro i _
    rfl
  · intro hashFn sci ds i d1 d2 h1 h2 hne
    show ((gdwmGo hashFn sci none 0 ds).map Doc.id)[i + 1]? = _
    rw [gdwmGo_ids, List.getElem?_map, idxGo_reset sci ds none 0 i d1 d2 h1 h2 hne]
    rfl

/-- Instantiation of `chunk_ids_page_window` at concrete inputs: a uniform
two-chunk page window, and a page change after the first chunk. -/
theorem chunk_ids_page_window_witness :
    (generate_documents_with_metadata (fun _ => "h")
        [{ content := "a", source := some "s", page := some 1 },
         { content := "b", source := some "s", page := some 1 }] none).map Doc.id =
      (List.range
        (List.length
          [({ content := "a", source := some "s", page := some 1 } : Doc),
           { content := "b", source := some "s", page := some 1 }])).map
        (fun i => sourceStr (some "s") ++ ":" ++ natRepr ((some 1).getD 0)
          ++ ":" ++ natRepr i) ∧
    ((generate_documents_with_metadata (fun _ => "h")
        [{ content := "a", source := some "s", page := some 1 },
         { content := "b", source := some "s", page := some 2 }] none).map
        Doc.id)[0 + 1]? =
      some (pageId none { content := "b", source := some "s", page := some 2 }
        ++ ":" ++ natRepr 0) := by
  constructor
  · exact chunk_ids_page_window.1 (fun _ => "h") (some "s") (some 1)
      [{ content := "a", source := some "s", page := some 1 },
       { content := "b", source := some "s", page := some 1 }] (by decide)
  · exact chunk_ids_page_window.2 (fun _ => "h") none
      [{ content := "a", source := some "s", page := some 1 },
       { content := "b", source := some "s", page := some 2 }] 0
      { content := "a", source := some "s", page := some 1 }
      { content := "b", source := some "s", page := some 2 }
      rfl rfl (by decide)

/-- C4 counterexample: ids are NOT pairwise distinct for arbitrary
processing orders.  Two chunks of source `s`, page 1 separated by a page-2
chunk both receive id `s:1:0`. -/
theorem chunk_ids_collide_cex :
    ¬ (((generate_documents_with_metadata (fun _ => "h")
        [{ content := "A", source := some "s", page := some 1 },
         { content := "B", source := some "s", page := some 2 },
         { content := "C", source := some "s", page := some 1 }] none).map
        Doc.id).Nodup) := by decide

/-- C4 amended: ids assigned in one run are pairwise distinct provided
chunks with equal page ids are processed consecutively (the `grouped`
condition on the sequence of page ids); arbitrary interleavings are NOT
covered, as `chunk_ids_collide_cex` shows. -/
theorem chunk_ids_unique_of_grouped (hashFn : String → String)
    (sci : Option Nat) (ds : List Doc)
    (hg : grouped (ds.map (pageId sci)) = true) :
    ((generate_documents_with_metadata hashFn ds sci).map Doc.id).Nodup := by
  show ((gdwmGo hashFn sci none 0 ds).map Doc.id).Nodup
  rw [gdwmGo_ids]
  exact List.Nodup.map (fun p q => encodeId_inj p q) (idxGo_nodup sci ds none 0 hg)

/-- Instantiation of `chunk_ids_unique_of_grouped` at a concrete page-grouped
input. -/
theorem chunk_ids_unique_of_grouped_witness :
    ((generate_documents_with_metadata (fun _ => "h")
        [{ content := "A", source := some "s", page := some 1 },
         { content := "B", source := some "s", page := some 1 },
         { content := "C", source := some "s", page := some 2 }] none).map
        Doc.id).Nodup :=
  chunk_ids_unique_of_grouped (fun _ => "h") none
    [{ content := "A", source := some "s", page := some 1 },
     { content := "B", source := some "s", page := some 1 },
     { content := "C", source := some "s", page := some 2 }] (by decide)

theorem rrdSpecGo_congr :
    ∀ (bs : List (List Doc)) (s1 s2 : List String),
      (∀ x, x ∈ s1 ↔ x ∈ s2) → rrdSpecGo bs s1 = rrdSpecGo bs s2 := by
  intro bs
  induction bs with
  | nil => intro s1 s2 _; rfl
  | cons b rest ih =>
    intro s1 s2 hmem
    simp only [rrdSpecGo]
    have hf : b.filter (fun d => decide (d.id ∉ s1)) =
        b.filter (fun d => decide (d.id ∉ s2)) := by
      apply List.filter_congr
      intro d _
      simp only [decide_eq_decide]
      exact not_congr (hmem d.id)
    rw [hf]
    refine congrArg _ ?_
    apply ih
    intro x
    simp only [List.mem_append]
    exact or_congr (hmem x) Iff.rfl

theorem rrdGo_eq_spec (retriever : String → List Doc) :
    ∀ (qs : List String) (acc : List Doc) (seen pages : List String),
      (rrdGo retriever qs acc seen pages).1 =
        acc ++ rrdSpecGo (qs.map retriever) seen := by
  intro qs
  induction qs with
  | nil => intro acc seen pages; simp [rrdGo, rrdSpecGo]
  | cons q rest ih =>
    intro acc seen pages
    simp only [rrdGo, List.map_cons, rrdSpecGo]
    rw [ih, List.append_assoc]
    refine congrArg _ (congrArg _ ?_)
    apply rrdSpecGo_congr
    intro x
    simp only [List.mem_append, List.mem_map, List.mem_filter,
      decide_eq_true_eq]
    constructor
    · rintro (hx | ⟨d, ⟨hd, _⟩, hid⟩)
      · exact Or.inl hx
      · exact Or.inr ⟨d, hd, hid⟩
    · rintro (hx | ⟨d, hd, hid⟩)
      · exact Or.inl hx
      · by_cases hseen : d.id ∈ seen
        · exact Or.inl (hid ▸ hseen)
        · exact Or.inr ⟨d, ⟨hd, hseen⟩, hid⟩

theorem rrdSpecGo_sublist :
    ∀ (bs : List (List Doc)) (seen : List String),
      List.Sublist (rrdSpecGo bs seen) bs.flatten := by
  intro bs
  induction bs with
  | nil => intro seen; simp [rrdSpecGo]
  | cons b rest ih =>
    intro seen
    simp only [rrdSpecGo, List.flatten_cons]
    exact List.Sublist.append (List.filter_sublist b) (ih _)

/-- C5: `retrieve_relevant_docs` processes variants in order and keeps a
retrieved document exactly when no earlier variant retrieved any document
with the same id (so an id retained from an earlier variant never reappears
from a later one and the first occurrence wins), and the retained documents
appear in their first-seen retrieval order (a sublist of the concatenated
per-variant results). -/
theorem retrieval_dedup_first_wins (questions : List String)
    (retriever : String → List Doc) :
    (retrieve_relevant_docs questions retriever).1 =
      rrdSpecGo (questions.map retriever) [] ∧
    List.Sublist (retrieve_relevant_docs questions retriever).1
      ((questions.map retriever).flatten) := by
  have h : (retrieve_relevant_docs questions retriever).1 =
      rrdSpecGo (questions.map retriever) [] := by
    show (rrdGo retriever questions [] [] []).1 = _
    rw [rrdGo_eq_spec]
    rfl
  exact ⟨h, h ▸ rrdSpecGo_sublist (questions.map retriever) []⟩

/-- C9: deduplication applies only across variants.  A single variant whose
retriever call returns two distinct documents sharing one id keeps both
occurrences, because the seen-id set is only updated after the variant's
whole result list is filtered. -/
theorem retrieval_within_variant_duplicates_kept :
    (retrieve_relevant_docs ["q"]
        (fun _ => [{ content := "first", id := "x" },
                   { content := "second", id := "x" }])).1 =
      [{ content := "first", id := "x" }, { content := "second", id := "x" }] := by
  decide

theorem childrenGo_parent (hashFn : String → String)
    (childSplit : List Doc → List Doc) :
    ∀ (parents : List Doc) (idx : Nat) (c : Doc),
      c ∈ childrenGo hashFn childSplit idx parents →
      ∃ P ∈ parents, c.parent_id = some P.id := by
  intro parents
  induction parents with
  | nil => intro idx c hc; simp [childrenGo] at hc
  | cons document rest ih =>
    intro idx c hc
    simp only [childrenGo, List.mem_append, List.mem_map] at hc
    rcases hc with ⟨sd, _, hsd⟩ | hc
    · exact ⟨document, List.mem_cons_self document rest, by rw [← hsd]⟩
    · obtain ⟨P, hP, hpid⟩ := ih (idx + 1) c hc
      exact ⟨P, List.mem_cons_of_mem document hP, hpid⟩

theorem mset_not_mem :
    ∀ (pairs : List (String × Doc)) (db : Db) (k : String),
      k ∉ pairs.map Prod.fst → Sqlitestore.mset db pairs k = db k := by
  intro pairs
  induction pairs with
  | nil => intro db k _; rfl
  | cons kv rest ih =>
    intro db k hk
    simp only [List.map_cons, List.mem_cons] at hk
    push_neg at hk
    show Sqlitestore.mset (fun q => if q = kv.1 then some kv.2 else db q) rest k = db k
    rw [ih _ k hk.2]
    simp [hk.1]

theorem mset_lookup :
    ∀ (pairs : List (String × Doc)) (db : Db) (k : String) (v : Doc),
      (k, v) ∈ pairs → (pairs.map Prod.fst).Nodup →
      Sqlitestore.mset db pairs k = some v := by
  intro pairs
  induction pairs with
  | nil => intro db k v hm _; simp at hm
  | cons kv rest ih =>
    intro db k v hm hnd
    simp only [List.map_cons, List.nodup_cons] at hnd
    simp only [List.mem_cons] at hm
    show Sqlitestore.mset (fun q => if q = kv.1 then some kv.2 else db q) rest k = some v
    rcases hm with hm | hm
    · have hk : k = kv.1 := by rw [← hm]
      have hv : v = kv.2 := by rw [← hm]
      rw [mset_not_mem rest _ k (by rw [hk]; exact hnd.1)]
      simp [hk, hv]
    · exact ih _ k v hm hnd.2

/-- C6 counterexample: with page-interleaved parent chunks the parent ids
collide, so a child's `parent_id` can resolve in the docstore to a LATER
parent's content.  The first child is produced from the first parent
(content `"A"`, id `"s:1:0"`) and carries `parent_id = "s:1:0"`, but after
`add_documents_to_store` the docstore maps `"s:1:0"` to content `"C"`. -/
theorem parent_linkage_cex :
    ((split_documents (fun _ => "h")
        (fun _ => [{ content := "A", source := some "s", page := some 1 },
                   { content := "B", source := some "s", page := some 2 },
                   { content := "C", source := some "s", page := some 1 }])
        (fun l => l) [] 10).2.map Doc.parent_id =
      [some "s:1:0", some "s:2:0", some "s:1:0"]) ∧
    ((split_documents (fun _ => "h")
        (fun _ => [{ content := "A", source := some "s", page := some 1 },
                   { content := "B", source := some "s", page := some 2 },
                   { content := "C", source := some "s", page := some 1 }])
        (fun l => l) [] 10).1.map Doc.content = ["A", "B", "C"]) ∧
    ((split_documents (fun _ => "h")
        (fun _ => [{ content := "A", source := some "s", page := some 1 },
                   { content := "B", source := some "s", page := some 2 },
                   { content := "C", source := some "s", page := some 1 }])
        (fun l => l) [] 10).1.map Doc.id = ["s:1:0", "s:2:0", "s:1:0"]) ∧
    (Sqlitestore.mset dbEmpty
        (add_documents_to_store
          (split_documents (fun _ => "h")
            (fun _ => [{ content := "A", source := some "s", page := some 1 },
                       { content := "B", source := some "s", page := some 2 },
                       { content := "C", source := some "s", page := some 1 }])
            (fun l => l) [] 10).1
          (split_documents (fun _ => "h")
            (fun _ => [{ content := "A", source := some "s", page := some 1 },
                       { content := "B", source := some "s", page := some 2 },
                       { content := "C", source := some "s", page := some 1 }])
            (fun l => l) [] 10).2
          500 [] (fun _ => none)).1 "s:1:0").map Doc.content = some "C" ∧
    some "C" ≠ some "A" := by
  refine ⟨by decide, by decide, by decide, by decide, by decide⟩

/-- The children produced from the single parent `P` at position `idx` in
the parent sequence: the loop body of `split_documents` re-identifies
`childSplit [P]` with `idx` as disambiguator, then stamps each child's
`parent_id` with `P`'s id. -/
def childrenOfParent (hashFn : String → String)
    (childSplit : List Doc → List Doc) (idx : Nat) (P : Doc) : List Doc :=
  (generate_documents_with_metadata hashFn (childSplit [P]) (some idx)).map
    (fun sd => { sd with parent_id := some P.id })

/-- The per-parent child blocks of `split_documents`, in parent order. -/
def childBlocks (hashFn : String → String)
    (childSplit : List Doc → List Doc) : Nat → List Doc → List (List Doc)
  | _, [] => []
  | idx, P :: rest =>
    childrenOfParent hashFn childSplit idx P ::
      childBlocks hashFn childSplit (idx + 1) rest

theorem childrenGo_eq_childBlocks (hashFn : String → String)
    (childSplit : List Doc → List Doc) :
    ∀ (parents : List Doc) (idx : Nat),
      childrenGo hashFn childSplit idx parents =
        (childBlocks hashFn childSplit idx parents).flatten := by
  intro parents
  induction parents with
  | nil => intro idx; rfl
  | cons P rest ih =>
    intro idx
    simp only [childrenGo, childBlocks, childrenOfParent, List.flatten_cons, ih]

theorem childBlocks_getElem (hashFn : String → String)
    (childSplit : List Doc → List Doc) :
    ∀ (parents : List Doc) (idx i : Nat),
      (childBlocks hashFn childSplit idx parents)[i]? =
        Option.map (childrenOfParent hashFn childSplit (idx + i)) parents[i]? := by
  intro parents
  induction parents with
  | nil => intro idx i; simp [childBlocks]
  | cons P rest ih =>
    intro idx i
    cases i with
    | zero => simp [childBlocks]
    | succ j =>
      simp only [childBlocks, List.getElem?_cons_succ]
      rw [ih (idx + 1) j]
      have harith : idx + 1 + j = idx + (j + 1) := by omega
      rw [harith]

/-- C6 amended: with child splitting enabled, the child output of
`split_documents` is exactly the in-order concatenation of per-parent
blocks, the `i`-th block being the children produced from the `i`-th
parent; every child in the `i`-th block carries `parent_id` equal to THAT
parent's id, and, PROVIDED the parent chunks receive pairwise distinct ids
(which holds whenever chunks with equal source+page arrive consecutively),
after `add_documents_to_store` writes the parents the docstore maps that id
back to the very parent that produced the child (hence to its content). -/
theorem parent_linkage_of_nodup (hashFn : String → String)
    (parentSplit childSplit : List Doc → List Doc) (documents : List Doc)
    (child_chunk_size chunk_size : Nat) (existing_ids : List String)
    (storeHash : String → Option String)
    (hccs : 0 < child_chunk_size)
    (hnd : ((split_documents hashFn parentSplit childSplit documents
        child_chunk_size).1.map Doc.id).Nodup) :
    (split_documents hashFn parentSplit childSplit documents
        child_chunk_size).2 =
      (childBlocks hashFn childSplit 0
        (split_documents hashFn parentSplit childSplit documents
          child_chunk_size).1).flatten ∧
    ∀ (i : Nat) (P : Doc),
      (split_documents hashFn parentSplit childSplit documents
          child_chunk_size).1[i]? = some P →
      (childBlocks hashFn childSplit 0
          (split_documents hashFn parentSplit childSplit documents
            child_chunk_size).1)[i]? =
        some (childrenOfParent hashFn childSplit i P) ∧
      ∀ c ∈ childrenOfParent hashFn childSplit i P,
        c.parent_id = some P.id ∧
        Sqlitestore.mset dbEmpty
          (add_documents_to_store
            (split_documents hashFn parentSplit childSplit documents
              child_chunk_size).1
            (split_documents hashFn parentSplit childSplit documents
              child_chunk_size).2
            chunk_size existing_ids storeHash).1 P.id = some P := by
  have hsub : (split_documents hashFn parentSplit childSplit documents
      child_chunk_size).2 =
      childrenGo hashFn childSplit 0
        (split_documents hashFn parentSplit childSplit documents
          child_chunk_size).1 := by
    simp only [split_documents, if_pos hccs]
  constructor
  · rw [hsub, childrenGo_eq_childBlocks]
  · intro i P hP
    have hblk : (childBlocks hashFn childSplit 0
        (split_documents hashFn parentSplit childSplit documents
          child_chunk_size).1)[i]? =
        some (childrenOfParent hashFn childSplit i P) := by
      rw [childBlocks_getElem, hP]
      simp
    refine ⟨hblk, ?_⟩
    intro c hc
    constructor
    · simp only [childrenOfParent, List.mem_map] at hc
      obtain ⟨sd, _, hsd⟩ := hc
      rw [← hsd]
    · have hPmem : P ∈ (split_documents hashFn parentSplit childSplit documents
          child_chunk_size).1 :=
        List.mem_iff_getElem?.mpr ⟨i, hP⟩
      have hcmem : c ∈ (split_documents hashFn parentSplit childSplit documents
          child_chunk_size).2 := by
        rw [hsub, childrenGo_eq_childBlocks]
        exact List.mem_flatten.mpr
          ⟨childrenOfParent hashFn childSplit i P,
            List.mem_iff_getElem?.mpr ⟨i, hblk⟩, hc⟩
      have hne : ¬ (split_documents hashFn parentSplit childSplit documents
          child_chunk_size).2.isEmpty := by
        intro habs
        rw [List.isEmpty_iff] at habs
        rw [habs] at hcmem
        exact (List.not_mem_nil c) hcmem
      have hwrites : (add_documents_to_store
          (split_documents hashFn parentSplit childSplit documents
            child_chunk_size).1
          (split_documents hashFn parentSplit childSplit documents
            child_chunk_size).2 chunk_size existing_ids storeHash).1 =
          (split_documents hashFn parentSplit childSplit documents
            child_chunk_size).1.map (fun d => (d.id, d)) := by
        simp only [add_documents_to_store]
        rw [if_neg hne]
      rw [hwrites]
      apply mset_lookup
      · exact List.mem_map_of_mem (fun d => (d.id, d)) hPmem
      · rw [List.map_map]
        exact hnd

/-- Instantiation of `parent_linkage_of_nodup` at a concrete page-grouped
input: the child output decomposes into per-parent blocks, and the first
child, produced from the first parent, carries that parent's id and
resolves to that parent in the docstore. -/
theorem parent_linkage_of_nodup_witness :
    (split_documents (fun _ => "h")
        (fun _ => [{ content := "A", source := some "s", page := some 1 },
                   { content := "B", source := some "s", page := some 2 }])
        (fun l => l) [] 10).2 =
      (childBlocks (fun _ => "h") (fun l => l) 0
        (split_documents (fun _ => "h")
          (fun _ => [{ content := "A", source := some "s", page := some 1 },
                     { content := "B", source := some "s", page := some 2 }])
          (fun l => l) [] 10).1).flatten ∧
    ({ content := "A", source := some "s", page := some 1, id := "s:0:1:0",
        hash := "h", parent_id := some "s:1:0" } : Doc).parent_id =
      some ({ content := "A", source := some "s", page := some 1,
              id := "s:1:0", hash := "h" } : Doc).id ∧
    Sqlitestore.mset dbEmpty
      (add_documents_to_store
        (split_documents (fun _ => "h")
          (fun _ => [{ content := "A", source := some "s", page := some 1 },
                     { content := "B", source := some "s", page := some 2 }])
          (fun l => l) [] 10).1
        (split_documents (fun _ => "h")
          (fun _ => [{ content := "A", source := some "s", page := some 1 },
                     { content := "B", source := some "s", page := some 2 }])
          (fun l => l) [] 10).2
        500 [] (fun _ => none)).1
      ({ content := "A", source := some "s", page := some 1,
         id := "s:1:0", hash := "h" } : Doc).id =
      some { content := "A", source := some "s", page := some 1,
             id := "s:1:0", hash := "h" } :=
  ⟨(parent_linkage_of_nodup (fun _ => "h")
      (fun _ => [{ content := "A", source := some "s", page := some 1 },
                 { content := "B", source := some "s", page := some 2 }])
      (fun l => l) [] 10 500 [] (fun _ => none) (by decide) (by decide)).1,
    ((parent_linkage_of_nodup (fun _ => "h")
      (fun _ => [{ content := "A", source := some "s", page := some 1 },
                 { content := "B", source := some "s", page := some 2 }])
      (fun l => l) [] 10 500 [] (fun _ => none) (by decide) (by decide)).2
      0 { content := "A", source := some "s", page := some 1,
            id := "s:1:0", hash := "h" } (by decide)).2
      { content := "A", source := some "s", page := some 1, id := "s:0:1:0",
        hash := "h", parent_id := some "s:1:0" } (by decide)⟩

/-- C7: `query_rag` wraps the whole pipeline in one error boundary.  If any
stage (expansion, retrieval, generation) raises, the exception is caught,
logged, and the call returns without a result; if no stage raises, the
generated response text is returned. -/
theorem query_rag_error_boundary
    (expand : String → Except String (List String))
    (retrieveStage : List String → Except String (List Doc × List String))
    (generate : String → List Doc → Except String String)
    (query_text : String) :
    (∀ e, query_pipeline expand retrieveStage generate query_text =
        Except.error e →
      query_rag expand retrieveStage generate query_text =
        (none, [LogEntry.error e])) ∧
    (∀ r pages, query_pipeline expand retrieveStage generate query_text =
        Except.ok (r, pages) →
      (query_rag expand retrieveStage generate query_text).1 = some r) := by
  constructor
  · intro e he
    unfold query_rag
    rw [he]
  · intro r pages h
    unfold query_rag
    rw [h]

/-- Instantiation of `query_rag_error_boundary`: a failing expansion stage
is caught and logged, and a fully successful pipeline returns the generated
text. -/
theorem query_rag_error_boundary_witness :
    query_rag (fun _ => Except.error "boom")
        (fun _ => Except.ok ([], []))
        (fun _ _ => Except.ok "ans") "q" =
      (none, [LogEntry.error "boom"]) ∧
    (query_rag (fun _ => Except.ok ["echo", "v1"])
        (fun _ => Except.ok ([], []))
        (fun _ _ => Except.ok "ans") "q").1 = some "ans" := by
  constructor
  · exact (query_rag_error_boundary (fun _ => Except.error "boom")
      (fun _ => Except.ok ([], [])) (fun _ _ => Except.ok "ans") "q").1
      "boom" rfl
  · exact (query_rag_error_boundary (fun _ => Except.ok ["echo", "v1"])
      (fun _ => Except.ok ([], [])) (fun _ _ => Except.ok "ans") "q").2
      "ans" [] rfl

/-- C8: `process_evaluation_result` raises a validation error exactly when
neither `"true"` nor `"false"` occurs in the evaluation string; whenever one
of them occurs it returns a boolean verdict. -/
theorem evaluation_result_validation (s : String) :
    ((∃ e, process_evaluation_result s = Except.error e) ↔
      (strContains s "true" = false ∧ strContains s "false" = false)) ∧
    ((strContains s "true" = true ∨ strContains s "false" = true) →
      ∃ b, process_evaluation_result s = Except.ok b) := by
  unfold process_evaluation_result
  by_cases h1 : strContains s "true" = true
  · simp [h1]
  · by_cases h2 : strContains s "false" = true
    · simp [h1, h2]
    · rw [Bool.not_eq_true] at h1 h2
      simp [h1, h2]

/-- Instantiation of `evaluation_result_validation`: an out-of-vocabulary
verdict errors, a verdict containing `"true"` yields a boolean. -/
theorem evaluation_result_validation_witness :
    (∃ e, process_evaluation_result "maybe" = Except.error e) ∧
    (∃ b, process_evaluation_result "it is true" = Except.ok b) := by
  constructor
  · exact (evaluation_result_validation "maybe").1.mpr (by decide)
  · exact (evaluation_result_validation "it is true").2 (by decide)

theorem mget_isSome_iff (db : Db) :
    ∀ keys : List String,
      (Sqlitestore.mget db keys).isSome ↔ ∀ k ∈ keys, (db k).isSome := by
  intro keys
  induction keys with
  | nil => simp [Sqlitestore.mget]
  | cons k ks ih =>
    simp only [Sqlitestore.mget]
    cases hk : db k with
    | none => simp [hk]
    | some v =>
      have hmap : ∀ (o : Option (List Doc)) (f : List Doc → List Doc),
          (Option.map f o).isSome = o.isSome := by
        intro o f; cases o <;> rfl
      rw [hmap, ih]
      simp only [List.mem_cons]
      constructor
      · intro h k' hk'
        rcases hk' with hk' | hk'
        · rw [hk']; simp [hk]
        · exact h k' hk'
      · intro h k' hk'
        exact h k' (Or.inr hk')

theorem mget_eq_filterMap (db : Db) :
    ∀ (keys : List String) (vals : List Doc),
      Sqlitestore.mget db keys = some vals → vals = keys.filterMap db := by
  intro keys
  induction keys with
  | nil =>
    intro vals h
    simp only [Sqlitestore.mget, Option.some.injEq] at h
    rw [← h]
    rfl
  | cons k ks ih =>
    intro vals h
    simp only [Sqlitestore.mget] at h
    cases hk : db k with
    | none => rw [hk] at h; simp at h
    | some v =>
      rw [hk] at h
      cases hks : Sqlitestore.mget db ks with
      | none => rw [hks] at h; simp at h
      | some vs =>
        rw [hks] at h
        have h' : v :: vs = vals := by simpa using h
        rw [← h', List.filterMap_cons, hk, ih vs hks]

theorem mdelete_isSome :
    ∀ (keys : List String) (db : Db), (Sqlitestore.mdelete db keys).isSome := by
  intro keys
  induction keys with
  | nil => intro db; rfl
  | cons k ks ih =>
    intro db
    simp only [Sqlitestore.mdelete]
    cases hk : db k with
    | none => simp only [hk, Option.isSome_none, Bool.false_eq_true, if_false]; exact ih db
    | some v =>
      simp only [hk, Option.isSome_some, if_true, Sqlitestore.delete_key, hk]
      exact ih _

/-- C10: `Sqlitestore.mget` returns the stored documents (in key order)
exactly when every requested key is present, and fails with a lookup error
— no partial result, no default — when any key is absent; `Sqlitestore.mdelete`
by contrast always succeeds, silently skipping absent keys. -/
theorem sqlitestore_mget_strict_mdelete_lenient (db : Db) (keys : List String) :
    ((Sqlitestore.mget db keys).isSome ↔ ∀ k ∈ keys, (db k).isSome) ∧
    (∀ vals, Sqlitestore.mget db keys = some vals → vals = keys.filterMap db) ∧
    (Sqlitestore.mdelete db keys).isSome :=
  ⟨mget_isSome_iff db keys, fun vals => mget_eq_filterMap db keys vals,
    mdelete_isSome keys db⟩

/-- Instantiation of `sqlitestore_mget_strict_mdelete_lenient` at a concrete
store: a lookup including a missing key fails, a lookup of present keys
returns the stored values, deletion with a missing key succeeds. -/
theorem sqlitestore_mget_strict_mdelete_lenient_witness :
    ¬ ((Sqlitestore.mget
        (fun k => if k = "a" then some ({ content := "va" } : Doc) else none)
        ["a", "missing"]).isSome = true) ∧
    [({ content := "va" } : Doc)] =
      (["a"] : List String).filterMap
        (fun k => if k = "a" then some ({ content := "va" } : Doc) else none) ∧
    (Sqlitestore.mdelete
        (fun k => if k = "a" then some ({ content := "va" } : Doc) else none)
        ["a", "missing"]).isSome := by
  refine ⟨?_, ?_, ?_⟩
  · intro habs
    have h := (sqlitestore_mget_strict_mdelete_lenient
      (fun k => if k = "a" then some ({ content := "va" } : Doc) else none)
      ["a", "missing"]).1.mp habs "missing" (by decide)
    simp at h
  · exact (sqlitestore_mget_strict_mdelete_lenient
      (fun k => if k = "a" then some ({ content := "va" } : Doc) else none)
      ["a"]).2.1 [{ content := "va" }] rfl
  · exact (sqlitestore_mget_strict_mdelete_lenient
      (fun k => if k = "a" then some ({ content := "va" } : Doc) else none)
      ["a", "missing"]).2.2
